import Mathlib

/-!
Shallow embedding of the maplit container-literal macros
(src/src/lib.rs) and proofs of the specification claims.

The four macros are `hashmap!`, `hashset!`, `btreemap!`, `btreeset!`.
Each accepts a comma-separated entry list, optionally with a trailing
comma; the unordered variants first compute an arity count (the
`@count` rule, which maps every entry to `()` and takes the length of
the resulting unit array, evaluating nothing), allocate the container
with `with_capacity(count)`, and then insert each entry in list order
with `_map.insert($key.into(), $value.into())`.  None of the grammars
has a production for an options prefix.  For the map macros the entry
production requires a `=>` after the key expression, so a call carrying
comma-separated `name=value` option tokens matches no rule and produces
no container.  For the set macros a `name=value` token is an assignment
expression, which the `$key:expr` element production accepts: such
tokens are matched as unit-valued elements and evaluated.

Entry expressions with side effects are modelled as state
transformers `σ → α × σ`; the effectful builders thread the state
exactly as the macro expansion sequences the expressions.
-/

namespace Maplit

variable {K V T : Type} {α β γ δ : Type} {σ : Type}

/-- A `name = value` option token, as described by the specification's
options grammar.  The value is opaque; only the name is ever inspected,
so it is modelled as a `Nat`.  `hashmap!`'s grammar (lib.rs lines
49-64) has no production that matches such a token: an entry needs a
`=>` after the complete key expression.  `hashset!`'s element
production (line 87) does match it, as an assignment expression (see
`assignExpr`). -/
structure OptToken where
  name : String
  value : Nat
deriving DecidableEq

/-- The option names the specification's options grammar recognizes.
No such names appear anywhere in the source grammar. -/
def recognizedNames : List String := ["capacity", "hasher", "key_map"]

/-- Number of tokens in an options bag carrying a given name. -/
def countName (opts : List OptToken) (n : String) : Nat :=
  (opts.filter fun t => t.name == n).length

/-- Model of `std::collections::HashMap`: the capacity hint passed to
`with_capacity` (recorded because claims speak about it; it does not
affect contents) together with the entries.  Entries are kept as an
association list with distinct keys; iteration order of the real
container is unspecified, so only length / lookup facts are claimed
about it. -/
structure HMap (K V : Type) where
  capacityHint : Nat
  entries : List (K × V)
deriving DecidableEq

/-- Model of `std::collections::HashSet`, analogously. -/
structure HSet (T : Type) where
  capacityHint : Nat
  elems : List T
deriving DecidableEq

/-- `HashMap::with_capacity(c)`: empty map, capacity hint `c`. -/
def HMap.withCapacity (c : Nat) : HMap K V :=
  { capacityHint := c, entries := [] }

/-- `HashSet::with_capacity(c)`: empty set, capacity hint `c`. -/
def HSet.withCapacity (c : Nat) : HSet T :=
  { capacityHint := c, elems := [] }

/-- `HashMap::insert` on the underlying association list: if the key is
present, the stored key is kept and its value replaced (the documented
behaviour of `HashMap::insert`); otherwise the pair is added. -/
def insertEntry [DecidableEq K] (k : K) (v : V) : List (K × V) → List (K × V)
  | [] => [(k, v)]
  | p :: t => if p.1 = k then (p.1, v) :: t else p :: insertEntry k v t

/-- `HashMap::get`: value stored at a key, if any. -/
def lookupEntry [DecidableEq K] (k : K) : List (K × V) → Option V
  | [] => none
  | p :: t => if p.1 = k then some p.2 else lookupEntry k t

/-- `HashSet::insert` on the underlying list: if the element is already
present the set is unchanged (the old element is kept); otherwise it is
added. -/
def insertElem [DecidableEq T] (x : T) : List T → List T
  | [] => [x]
  | y :: t => if y = x then y :: t else y :: insertElem x t

/-- `HashMap::insert`, lifted to the `HMap` model. -/
def HMap.insert [DecidableEq K] (m : HMap K V) (k : K) (v : V) : HMap K V :=
  { capacityHint := m.capacityHint, entries := insertEntry k v m.entries }

/-- `HashSet::insert`, lifted to the `HSet` model. -/
def HSet.insert [DecidableEq T] (s : HSet T) (x : T) : HSet T :=
  { capacityHint := s.capacityHint, elems := insertElem x s.elems }

/-- The `hashmap!(@count ...)` rule (lib.rs line 51): every entry,
whatever it is, is mapped by `@single` (line 50) to the unit value
`()`, and the length of the resulting unit array is taken.  The entry
itself is never evaluated: only the list structure is consumed. -/
def hashmapCount (es : List γ) : Nat :=
  (es.map fun _ => ()).length

/-- The `hashset!(@count ...)` rule (lib.rs line 84), identical in
shape to the `hashmap!` one. -/
def hashsetCount (xs : List γ) : Nat :=
  (xs.map fun _ => ()).length

/-- Body of the `hashmap!` main rule (lib.rs lines 54-63): compute
`_cap` with the `@count` rule, allocate `HashMap::with_capacity(_cap)`,
then for each entry in list order insert
`($key.into(), $value.into())`.  The two `.into()` conversions are the
explicit parameters `fk` and `fv`; when the written type already equals
the container's key/value type they are the reflexive `Into` instance,
i.e. the identity. -/
def hashmapBuild [DecidableEq K] (fk : α → K) (fv : β → V)
    (es : List (α × β)) : HMap K V :=
  es.foldl (fun m p => m.insert (fk p.1) (fv p.2))
    (HMap.withCapacity (hashmapCount es))

/-- Body of the `hashset!` main rule (lib.rs lines 87-96). -/
def hashsetBuild [DecidableEq T] (f : γ → T) (xs : List γ) : HSet T :=
  xs.foldl (fun s x => s.insert (f x))
    (HSet.withCapacity (hashsetCount xs))

/-- `BTreeMap::insert` on a comparison-sorted association list: place
the pair at its ordered position; on an equal key the stored key is
kept and the value replaced (the documented behaviour of
`BTreeMap::insert`). -/
def btreeInsert [LinearOrder K] (k : K) (v : V) :
    List (K × V) → List (K × V)
  | [] => [(k, v)]
  | p :: t =>
    if k < p.1 then (k, v) :: p :: t
    else if k = p.1 then (p.1, v) :: t
    else p :: btreeInsert k v t

/-- `BTreeSet::insert` on a comparison-sorted list: place the element
at its ordered position; an already-present element leaves the set
unchanged. -/
def btreeElemInsert [LinearOrder T] (x : T) : List T → List T
  | [] => [x]
  | y :: t =>
    if x < y then x :: y :: t
    else if x = y then y :: t
    else y :: btreeElemInsert x t

/-- Body of the `btreemap!` main rule (lib.rs lines 122-130):
`BTreeMap::new()` (no capacity concept), then insert
`($key.into(), $value.into())` for each entry in list order.  The
model of `BTreeMap` is its iteration order: the sorted association
list. -/
def btreemapBuild [LinearOrder K] (fk : α → K) (fv : β → V)
    (es : List (α × β)) : List (K × V) :=
  es.foldl (fun m p => btreeInsert (fk p.1) (fv p.2) m) []

/-- Body of the `btreeset!` main rule (lib.rs lines 152-160). -/
def btreesetBuild [LinearOrder T] (f : γ → T) (xs : List γ) : List T :=
  xs.foldl (fun s x => btreeElemInsert (f x) s) []

/-- The full `hashmap!` macro (lib.rs lines 49-64) as a matcher over a
call shape: an options bag, an entry list, and whether a trailing comma
is present.  Rule at line 53 matches one-or-more entries followed by a
trailing comma and forwards to the rule at line 54; the rule at line 54
matches a bare comma-separated entry list.  Neither rule has a
production for an options prefix, and a `name = value` token cannot
begin an entry either — `$key:expr => ...` requires a `=>` right after
the complete assignment expression, which a comma-separated option
token never has.  So any call carrying option tokens matches no rule:
no container is produced (the call is rejected at expansion time). -/
def hashmap [DecidableEq K] (fk : α → K) (fv : β → V)
    (opts : List OptToken) (es : List (α × β)) (trailing : Bool) :
    Option (HMap K V) :=
  match opts, es, trailing with
  | [], e :: t, true => some (hashmapBuild fk fv (e :: t))
  | [], es0, false => some (hashmapBuild fk fv es0)
  | _, _, _ => none

/-- The specification's call shape for `hashset!` (lib.rs lines
82-97): an options bag, an element list of the set's element type `γ`,
and the trailing-comma flag.  The grammar has no production for a
distinct options prefix, so in this shape a nonempty bag is modelled as
rejected.  Caveat: unlike `hashmap!`, `hashset!`'s `$key:expr` element
production does match a bare `name = value` token, as an assignment
expression of unit type — that reading is not covered by this
`γ`-typed shape; it is embedded faithfully with the tokens as
unit-typed elements via `assignExpr` and `hashsetE`, and it is the
reading that settles the options-bag claims for sets. -/
def hashset [DecidableEq T] (f : γ → T)
    (opts : List OptToken) (xs : List γ) (trailing : Bool) :
    Option (HSet T) :=
  match opts, xs, trailing with
  | [], x :: t, true => some (hashsetBuild f (x :: t))
  | [], xs0, false => some (hashsetBuild f xs0)
  | _, _, _ => none

/-- The full `btreemap!` macro (lib.rs lines 118-131): the trailing
comma rule at line 120 forwards to the main rule at line 122.  The
grammar has no options production at all, so the call shape carries no
options bag. -/
def btreemap [LinearOrder K] (fk : α → K) (fv : β → V)
    (es : List (α × β)) (trailing : Bool) : Option (List (K × V)) :=
  match es, trailing with
  | e :: t, true => some (btreemapBuild fk fv (e :: t))
  | es0, false => some (btreemapBuild fk fv es0)
  | [], true => none

/-- The full `btreeset!` macro (lib.rs lines 149-161). -/
def btreeset [LinearOrder T] (f : γ → T)
    (xs : List γ) (trailing : Bool) : Option (List T) :=
  match xs, trailing with
  | x :: t, true => some (btreesetBuild f (x :: t))
  | xs0, false => some (btreesetBuild f xs0)
  | [], true => none

/-- An entry expression with observable side effects: a state
transformer producing the entry's value and the successor state. -/
abbrev Expr (σ α : Type) := σ → α × σ

/-- Reference single pass over map entries: for each entry in list
order, evaluate the key expression once, then the value expression
once; return the evaluated pairs and the final state.  Each
expression is applied to exactly one state, i.e. run exactly once. -/
def evalMapEntries : List (Expr σ α × Expr σ β) → σ → List (α × β) × σ
  | [], s => ([], s)
  | e :: t, s =>
    let ks := e.1 s
    let vs := e.2 ks.2
    let rest := evalMapEntries t vs.2
    ((ks.1, vs.1) :: rest.1, rest.2)

/-- Reference single pass over set elements. -/
def evalElems : List (Expr σ γ) → σ → List γ × σ
  | [], s => ([], s)
  | e :: t, s =>
    let xs := e s
    let rest := evalElems t xs.2
    (xs.1 :: rest.1, rest.2)

/-- The `hashmap!` expansion run over effectful entry expressions: the
`@count` pass consumes only the list structure (it maps every entry to
`()`), then the insert loop evaluates, for each entry in order, the key
expression and then the value expression, inserting the converted pair.
-/
def hashmapBuildE [DecidableEq K] (fk : α → K) (fv : β → V)
    (es : List (Expr σ α × Expr σ β)) (s : σ) : HMap K V × σ :=
  es.foldl
    (fun ms e =>
      let ks := e.1 ms.2
      let vs := e.2 ks.2
      (ms.1.insert (fk ks.1) (fv vs.1), vs.2))
    (HMap.withCapacity (hashmapCount es), s)

/-- The `hashset!` expansion run over effectful element expressions. -/
def hashsetBuildE [DecidableEq T] (f : γ → T)
    (xs : List (Expr σ γ)) (s : σ) : HSet T × σ :=
  xs.foldl
    (fun ms e =>
      let es := e ms.2
      (ms.1.insert (f es.1), es.2))
    (HSet.withCapacity (hashsetCount xs), s)

/-- The `btreemap!` expansion run over effectful entry expressions. -/
def btreemapBuildE [LinearOrder K] (fk : α → K) (fv : β → V)
    (es : List (Expr σ α × Expr σ β)) (s : σ) : List (K × V) × σ :=
  es.foldl
    (fun ms e =>
      let ks := e.1 ms.2
      let vs := e.2 ks.2
      (btreeInsert (fk ks.1) (fv vs.1) ms.1, vs.2))
    ([], s)

/-- The `btreeset!` expansion run over effectful element expressions. -/
def btreesetBuildE [LinearOrder T] (f : γ → T)
    (xs : List (Expr σ γ)) (s : σ) : List T × σ :=
  xs.foldl
    (fun ms e =>
      let es := e ms.2
      (btreeElemInsert (f es.1) ms.1, es.2))
    ([], s)

/-- The `hashmap!` macro over effectful entries: a call that matches no
rule is a compile-time rejection, so nothing is evaluated (the state is
returned unchanged) and no container is produced. -/
def hashmapE [DecidableEq K] (fk : α → K) (fv : β → V)
    (opts : List OptToken) (es : List (Expr σ α × Expr σ β))
    (trailing : Bool) (s : σ) : Option (HMap K V) × σ :=
  match opts, es, trailing with
  | [], e :: t, true =>
    (fun r => (some r.1, r.2)) (hashmapBuildE fk fv (e :: t) s)
  | [], es0, false =>
    (fun r => (some r.1, r.2)) (hashmapBuildE fk fv es0 s)
  | _, _, _ => (none, s)

/-- A `name = value` option token as `hashset!`'s grammar actually
reads it: a Rust assignment expression, which the `$key:expr` element
production matches.  Evaluating it writes the value to the named
variable of the enclosing scope's store and yields the unit value —
the element that is then inserted (its reflexive `Into` is the
identity). -/
def assignExpr (t : OptToken) : Expr (List (String × Nat)) Unit :=
  fun s => ((), insertEntry t.name t.value s)

/-- The `hashset!` macro (lib.rs lines 82-97) over effectful elements:
the trailing-comma rule at line 86 (one or more elements) forwards to
the rule at line 87 (bare comma-separated element list).  There is no
options production: the call shape is just the element expressions, and
a `name = value` token stream enters here as `assignExpr` elements.
Only a bare trailing comma matches no rule; that call is rejected at
expansion time with nothing evaluated and no container. -/
def hashsetE [DecidableEq T] (f : γ → T)
    (xs : List (Expr σ γ)) (trailing : Bool) (s : σ) :
    Option (HSet T) × σ :=
  match xs, trailing with
  | x :: t, true =>
    (fun r => (some r.1, r.2)) (hashsetBuildE f (x :: t) s)
  | xs0, false =>
    (fun r => (some r.1, r.2)) (hashsetBuildE f xs0 s)
  | [], true => (none, s)

/-- Specification-side description of "the value of the last occurrence
of a duplicate key wins": fold the written entries left to right,
remembering the value at the sought key. -/
def lastVal [DecidableEq K] (es : List (K × V)) (k : K) : Option V :=
  es.foldl (fun acc p => if p.1 = k then some p.2 else acc) none

/-- A fold of `HashMap::insert` over an association list, used to state
helper lemmas about the builders. -/
def insertAll [DecidableEq K] (l0 : List (K × V)) (es : List (K × V)) :
    List (K × V) :=
  es.foldl (fun l p => insertEntry p.1 p.2 l) l0

/-- A fold of `HashSet::insert` over a list, used to state helper
lemmas about the builders. -/
def insertAllElems [DecidableEq T] (l0 : List T) (xs : List T) : List T :=
  xs.foldl (fun l x => insertElem x l) l0

/-- An entry expression that logs its label to an event trace and
returns it: used to observe evaluation order. -/
def tag (n : Nat) : Expr (List Nat) Nat :=
  fun s => (n, s ++ [n])

/-- The in-list-order, key-before-value interleaving of the labels of a
list of map entries. -/
def flatLabels : List (Nat × Nat) → List Nat
  | [] => []
  | p :: t => p.1 :: p.2 :: flatLabels t

theorem insertEntry_keys [DecidableEq K] (k : K) (v : V) (l : List (K × V)) :
    (insertEntry k v l).map Prod.fst =
      if k ∈ l.map Prod.fst then l.map Prod.fst
      else l.map Prod.fst ++ [k] := by
  induction l with
  | nil => simp [insertEntry]
  | cons p t ih =>
    by_cases h : p.1 = k
    · subst h
      simp [insertEntry]
    · by_cases hm : k ∈ t.map Prod.fst <;>
        simp [insertEntry, h, ih, hm, Ne.symm h]

theorem mem_insertEntry [DecidableEq K] {q : K × V} {k : K} {v : V}
    {l : List (K × V)} (hq : q ∈ insertEntry k v l) :
    q = (k, v) ∨ q ∈ l := by
  induction l with
  | nil => simpa [insertEntry] using hq
  | cons p t ih =>
    by_cases h : p.1 = k
    · rw [insertEntry, if_pos h] at hq
      rcases List.mem_cons.1 hq with h1 | h1
      · exact Or.inl (by rw [h1, h])
      · exact Or.inr (List.mem_cons_of_mem p h1)
    · rw [insertEntry, if_neg h] at hq
      rcases List.mem_cons.1 hq with h1 | h1
      · exact Or.inr (by simp [h1])
      · rcases ih h1 with h2 | h2
        · exact Or.inl h2
        · exact Or.inr (List.mem_cons_of_mem p h2)

theorem lookupEntry_insertEntry [DecidableEq K] (a k : K) (v : V)
    (l : List (K × V)) :
    lookupEntry a (insertEntry k v l) =
      if k = a then some v else lookupEntry a l := by
  induction l with
  | nil => simp [insertEntry, lookupEntry]
  | cons p t ih =>
    by_cases h : p.1 = k
    · subst h
      by_cases ha : p.1 = a <;> simp [insertEntry, lookupEntry, ha]
    · by_cases ha : p.1 = a
      · have hka : ¬k = a := fun hk => h (by rw [ha, hk])
        have hak : ¬a = k := fun hk => hka hk.symm
        simp [insertEntry, lookupEntry, h, ha, hka, hak]
      · simp [insertEntry, lookupEntry, h, ha, ih]

theorem insertElem_eq [DecidableEq T] (x : T) (l : List T) :
    insertElem x l = if x ∈ l then l else l ++ [x] := by
  induction l with
  | nil => simp [insertElem]
  | cons y t ih =>
    by_cases h : y = x
    · subst h
      simp [insertElem]
    · by_cases hm : x ∈ t <;> simp [insertElem, h, ih, hm, Ne.symm h]

theorem hashmapCount_eq_length (es : List γ) : hashmapCount es = es.length := by
  simp [hashmapCount]

theorem hashsetCount_eq_length (xs : List γ) : hashsetCount xs = xs.length := by
  simp [hashsetCount]

theorem foldl_insert_hmap [DecidableEq K] (fk : α → K) (fv : β → V)
    (es : List (α × β)) :
    ∀ m : HMap K V,
      es.foldl (fun m p => m.insert (fk p.1) (fv p.2)) m =
        ⟨m.capacityHint,
          es.foldl (fun l p => insertEntry (fk p.1) (fv p.2) l) m.entries⟩ := by
  induction es with
  | nil => intro m; rfl
  | cons p t ih =>
    intro m
    rw [List.foldl_cons, ih]
    rfl

theorem hashmapBuild_eq [DecidableEq K] (fk : α → K) (fv : β → V)
    (es : List (α × β)) :
    hashmapBuild fk fv es =
      ⟨hashmapCount es,
        es.foldl (fun l p => insertEntry (fk p.1) (fv p.2) l) []⟩ := by
  simp [hashmapBuild, foldl_insert_hmap, HMap.withCapacity]

theorem hashmapBuild_id_entries [DecidableEq K] (es : List (K × V)) :
    (hashmapBuild (id : K → K) (id : V → V) es).entries = insertAll [] es := by
  simp [hashmapBuild_eq, insertAll, id_eq]

theorem foldl_insert_hset [DecidableEq T] (f : γ → T) (xs : List γ) :
    ∀ s : HSet T,
      xs.foldl (fun s x => s.insert (f x)) s =
        ⟨s.capacityHint, xs.foldl (fun l x => insertElem (f x) l) s.elems⟩ := by
  induction xs with
  | nil => intro s; rfl
  | cons x t ih =>
    intro s
    rw [List.foldl_cons, ih]
    rfl

theorem hashsetBuild_eq [DecidableEq T] (f : γ → T) (xs : List γ) :
    hashsetBuild f xs =
      ⟨hashsetCount xs, xs.foldl (fun l x => insertElem (f x) l) []⟩ := by
  simp [hashsetBuild, foldl_insert_hset, HSet.withCapacity]

theorem hashsetBuild_id_elems [DecidableEq T] (xs : List T) :
    (hashsetBuild (id : T → T) xs).elems = insertAllElems [] xs := by
  simp [hashsetBuild_eq, insertAllElems, id_eq]

theorem insertEntry_keys_toFinset [DecidableEq K] (k : K) (v : V)
    (l : List (K × V)) :
    ((insertEntry k v l).map Prod.fst).toFinset =
      insert k (l.map Prod.fst).toFinset := by
  rw [insertEntry_keys]
  by_cases hm : k ∈ l.map Prod.fst
  · rw [if_pos hm]
    exact (Finset.insert_eq_self.2 (List.mem_toFinset.2 hm)).symm
  · rw [if_neg hm, List.toFinset_append]
    ext a
    simp [or_comm]

theorem insertAll_keys_toFinset [DecidableEq K] (es : List (K × V)) :
    ∀ l0 : List (K × V),
      ((insertAll l0 es).map Prod.fst).toFinset =
        (l0.map Prod.fst).toFinset ∪ (es.map Prod.fst).toFinset := by
  induction es with
  | nil => intro l0; simp [insertAll]
  | cons p t ih =>
    intro l0
    have h1 : insertAll l0 (p :: t) = insertAll (insertEntry p.1 p.2 l0) t := rfl
    rw [h1, ih, insertEntry_keys_toFinset]
    ext a
    simp [Finset.mem_union, Finset.mem_insert]

theorem insertAll_keys_nodup [DecidableEq K] (es : List (K × V)) :
    ∀ l0 : List (K × V), (l0.map Prod.fst).Nodup →
      ((insertAll l0 es).map Prod.fst).Nodup := by
  induction es with
  | nil => intro l0 h; simpa [insertAll] using h
  | cons p t ih =>
    intro l0 h
    have h1 : insertAll l0 (p :: t) = insertAll (insertEntry p.1 p.2 l0) t := rfl
    rw [h1]
    apply ih
    rw [insertEntry_keys]
    by_cases hm : p.1 ∈ l0.map Prod.fst
    · simpa [hm] using h
    · rw [if_neg hm]
      rw [List.nodup_append]
      exact ⟨h, List.nodup_singleton _,
        fun a ha hb => hm ((List.mem_singleton.1 hb) ▸ ha)⟩

theorem insertAll_lookup [DecidableEq K] (k : K) (es : List (K × V)) :
    ∀ l0 : List (K × V),
      lookupEntry k (insertAll l0 es) =
        es.foldl (fun acc p => if p.1 = k then some p.2 else acc)
          (lookupEntry k l0) := by
  induction es with
  | nil => intro l0; rfl
  | cons p t ih =>
    intro l0
    have h1 : insertAll l0 (p :: t) = insertAll (insertEntry p.1 p.2 l0) t := rfl
    rw [h1, ih, List.foldl_cons, lookupEntry_insertEntry]

theorem mem_insertAll [DecidableEq K] {q : K × V} (es : List (K × V)) :
    ∀ l0 : List (K × V), q ∈ insertAll l0 es → q ∈ l0 ∨ q ∈ es := by
  induction es with
  | nil => intro l0 h; exact Or.inl h
  | cons p t ih =>
    intro l0 h
    rcases ih (insertEntry p.1 p.2 l0) h with h1 | h1
    · rcases mem_insertEntry h1 with h2 | h2
      · right
        rw [h2, Prod.mk.eta]
        exact List.mem_cons_self p t
      · exact Or.inl h2
    · right; exact List.mem_cons_of_mem p h1

theorem insertElem_toFinset [DecidableEq T] (x : T) (l : List T) :
    (insertElem x l).toFinset = insert x l.toFinset := by
  rw [insertElem_eq]
  by_cases hm : x ∈ l
  · rw [if_pos hm]
    exact (Finset.insert_eq_self.2 (List.mem_toFinset.2 hm)).symm
  · rw [if_neg hm, List.toFinset_append]
    ext a
    simp [or_comm]

theorem insertAllElems_toFinset [DecidableEq T] (xs : List T) :
    ∀ l0 : List T,
      (insertAllElems l0 xs).toFinset = l0.toFinset ∪ xs.toFinset := by
  induction xs with
  | nil => intro l0; simp [insertAllElems]
  | cons x t ih =>
    intro l0
    have h1 : insertAllElems l0 (x :: t) = insertAllElems (insertElem x l0) t := rfl
    rw [h1, ih, insertElem_toFinset]
    ext a
    simp [Finset.mem_union, Finset.mem_insert]

theorem insertAllElems_nodup [DecidableEq T] (xs : List T) :
    ∀ l0 : List T, l0.Nodup → (insertAllElems l0 xs).Nodup := by
  induction xs with
  | nil => intro l0 h; simpa [insertAllElems] using h
  | cons x t ih =>
    intro l0 h
    have h1 : insertAllElems l0 (x :: t) = insertAllElems (insertElem x l0) t := rfl
    rw [h1]
    apply ih
    rw [insertElem_eq]
    by_cases hm : x ∈ l0
    · simpa [hm] using h
    · rw [if_neg hm, List.nodup_append]
      exact ⟨h, List.nodup_singleton _,
        fun a ha hb => hm ((List.mem_singleton.1 hb) ▸ ha)⟩

theorem btreeInsert_keys_mem [LinearOrder K] (a k : K) (v : V)
    (l : List (K × V)) :
    a ∈ (btreeInsert k v l).map Prod.fst ↔ a = k ∨ a ∈ l.map Prod.fst := by
  induction l with
  | nil => simp [btreeInsert]
  | cons p t ih =>
    by_cases h1 : k < p.1
    · simp [btreeInsert, h1]
    · by_cases h2 : k = p.1
      · simp [btreeInsert, h1, h2]
      · simp [btreeInsert, h1, h2, ih]
        tauto

theorem btreeInsert_keys_sorted [LinearOrder K] (k : K) (v : V)
    (l : List (K × V)) :
    List.Sorted (· < ·) (l.map Prod.fst) →
      List.Sorted (· < ·) ((btreeInsert k v l).map Prod.fst) := by
  induction l with
  | nil =>
    intro _
    simp [btreeInsert]
  | cons p t ih =>
    intro h
    rw [List.map_cons, List.sorted_cons] at h
    obtain ⟨hp, ht⟩ := h
    by_cases h1 : k < p.1
    · rw [show btreeInsert k v (p :: t) = (k, v) :: p :: t by
        simp [btreeInsert, h1]]
      rw [List.map_cons, List.map_cons, List.sorted_cons]
      refine ⟨fun b hb => ?_, ?_⟩
      · rcases List.mem_cons.1 hb with rfl | hb2
        · exact h1
        · exact h1.trans (hp b hb2)
      · rw [List.sorted_cons]
        exact ⟨hp, ht⟩
    · by_cases h2 : k = p.1
      · rw [show btreeInsert k v (p :: t) = (p.1, v) :: t by
          simp [btreeInsert, h1, h2]]
        rw [List.map_cons, List.sorted_cons]
        exact ⟨hp, ht⟩
      · have h3 : p.1 < k :=
          lt_of_le_of_ne (not_lt.1 h1) (fun e => h2 e.symm)
        rw [show btreeInsert k v (p :: t) = p :: btreeInsert k v t by
          simp [btreeInsert, h1, h2]]
        rw [List.map_cons, List.sorted_cons]
        refine ⟨fun b hb => ?_, ih ht⟩
        rcases (btreeInsert_keys_mem b k v t).1 hb with rfl | hb2
        · exact h3
        · exact hp b hb2

theorem btreeElemInsert_mem [LinearOrder T] (a x : T) (l : List T) :
    a ∈ btreeElemInsert x l ↔ a = x ∨ a ∈ l := by
  induction l with
  | nil => simp [btreeElemInsert]
  | cons y t ih =>
    by_cases h1 : x < y
    · simp [btreeElemInsert, h1]
    · by_cases h2 : x = y
      · simp [btreeElemInsert, h1, h2]
      · simp [btreeElemInsert, h1, h2, ih]
        tauto

theorem btreeElemInsert_sorted [LinearOrder T] (x : T) (l : List T) :
    List.Sorted (· < ·) l →
      List.Sorted (· < ·) (btreeElemInsert x l) := by
  induction l with
  | nil =>
    intro _
    simp [btreeElemInsert]
  | cons y t ih =>
    intro h
    rw [List.sorted_cons] at h
    obtain ⟨hy, ht⟩ := h
    by_cases h1 : x < y
    · rw [show btreeElemInsert x (y :: t) = x :: y :: t by
        simp [btreeElemInsert, h1]]
      rw [List.sorted_cons]
      refine ⟨fun b hb => ?_, ?_⟩
      · rcases List.mem_cons.1 hb with rfl | hb2
        · exact h1
        · exact h1.trans (hy b hb2)
      · rw [List.sorted_cons]
        exact ⟨hy, ht⟩
    · by_cases h2 : x = y
      · rw [show btreeElemInsert x (y :: t) = y :: t by
          simp [btreeElemInsert, h1, h2]]
        rw [List.sorted_cons]
        exact ⟨hy, ht⟩
      · have h3 : y < x :=
          lt_of_le_of_ne (not_lt.1 h1) (fun e => h2 e.symm)
        rw [show btreeElemInsert x (y :: t) = y :: btreeElemInsert x t by
          simp [btreeElemInsert, h1, h2]]
        rw [List.sorted_cons]
        refine ⟨fun b hb => ?_, ih ht⟩
        rcases (btreeElemInsert_mem b x t).1 hb with rfl | hb2
        · exact h3
        · exact hy b hb2

theorem btreeFold_sorted [LinearOrder K] (fk : α → K) (fv : β → V)
    (es : List (α × β)) :
    ∀ l0 : List (K × V), List.Sorted (· < ·) (l0.map Prod.fst) →
      List.Sorted (· < ·)
        ((es.foldl (fun m p => btreeInsert (fk p.1) (fv p.2) m) l0).map
          Prod.fst) := by
  induction es with
  | nil => intro l0 h; exact h
  | cons p t ih =>
    intro l0 h
    rw [List.foldl_cons]
    exact ih _ (btreeInsert_keys_sorted _ _ _ h)

theorem btreeFold_keys_mem [LinearOrder K] (fk : α → K) (fv : β → V)
    (a : K) (es : List (α × β)) :
    ∀ l0 : List (K × V),
      (a ∈ (es.foldl (fun m p => btreeInsert (fk p.1) (fv p.2) m) l0).map
          Prod.fst ↔
        a ∈ l0.map Prod.fst ∨ a ∈ es.map fun p => fk p.1) := by
  induction es with
  | nil => intro l0; simp
  | cons p t ih =>
    intro l0
    rw [List.foldl_cons, ih, btreeInsert_keys_mem, List.map_cons,
      List.mem_cons]
    tauto

theorem btreeFoldElem_sorted [LinearOrder T] (f : γ → T) (xs : List γ) :
    ∀ l0 : List T, List.Sorted (· < ·) l0 →
      List.Sorted (· < ·)
        (xs.foldl (fun s x => btreeElemInsert (f x) s) l0) := by
  induction xs with
  | nil => intro l0 h; exact h
  | cons x t ih =>
    intro l0 h
    rw [List.foldl_cons]
    exact ih _ (btreeElemInsert_sorted _ _ h)

theorem btreeFoldElem_mem [LinearOrder T] (f : γ → T) (a : T)
    (xs : List γ) :
    ∀ l0 : List T,
      (a ∈ xs.foldl (fun s x => btreeElemInsert (f x) s) l0 ↔
        a ∈ l0 ∨ a ∈ xs.map f) := by
  induction xs with
  | nil => intro l0; simp
  | cons x t ih =>
    intro l0
    rw [List.foldl_cons, ih, btreeElemInsert_mem, List.map_cons,
      List.mem_cons]
    tauto

theorem evalMapEntries_length (es : List (Expr σ α × Expr σ β)) :
    ∀ s : σ, (evalMapEntries es s).1.length = es.length := by
  induction es with
  | nil => intro s; rfl
  | cons e t ih => intro s; simp [evalMapEntries, ih]

theorem evalElems_length (xs : List (Expr σ γ)) :
    ∀ s : σ, (evalElems xs s).1.length = xs.length := by
  induction xs with
  | nil => intro s; rfl
  | cons e t ih => intro s; simp [evalElems, ih]

theorem hashmapBuildE_fold [DecidableEq K] (fk : α → K) (fv : β → V)
    (es : List (Expr σ α × Expr σ β)) :
    ∀ (m : HMap K V) (s : σ),
      es.foldl
        (fun ms e =>
          let ks := e.1 ms.2
          let vs := e.2 ks.2
          (ms.1.insert (fk ks.1) (fv vs.1), vs.2)) (m, s) =
      ((evalMapEntries es s).1.foldl
          (fun m p => m.insert (fk p.1) (fv p.2)) m,
        (evalMapEntries es s).2) := by
  induction es with
  | nil => intro m s; simp [evalMapEntries]
  | cons e t ih =>
    intro m s
    simp only [List.foldl_cons]
    rw [ih]
    simp [evalMapEntries, List.foldl_cons]

theorem hashsetBuildE_fold [DecidableEq T] (f : γ → T)
    (xs : List (Expr σ γ)) :
    ∀ (m : HSet T) (s : σ),
      xs.foldl
        (fun ms e =>
          let es := e ms.2
          (ms.1.insert (f es.1), es.2)) (m, s) =
      ((evalElems xs s).1.foldl (fun m x => m.insert (f x)) m,
        (evalElems xs s).2) := by
  induction xs with
  | nil => intro m s; simp [evalElems]
  | cons e t ih =>
    intro m s
    simp only [List.foldl_cons]
    rw [ih]
    simp [evalElems, List.foldl_cons]

theorem btreemapBuildE_fold [LinearOrder K] (fk : α → K) (fv : β → V)
    (es : List (Expr σ α × Expr σ β)) :
    ∀ (m : List (K × V)) (s : σ),
      es.foldl
        (fun ms e =>
          let ks := e.1 ms.2
          let vs := e.2 ks.2
          (btreeInsert (fk ks.1) (fv vs.1) ms.1, vs.2)) (m, s) =
      ((evalMapEntries es s).1.foldl
          (fun m p => btreeInsert (fk p.1) (fv p.2) m) m,
        (evalMapEntries es s).2) := by
  induction es with
  | nil => intro m s; simp [evalMapEntries]
  | cons e t ih =>
    intro m s
    simp only [List.foldl_cons]
    rw [ih]
    simp [evalMapEntries, List.foldl_cons]

theorem btreesetBuildE_fold [LinearOrder T] (f : γ → T)
    (xs : List (Expr σ γ)) :
    ∀ (m : List T) (s : σ),
      xs.foldl
        (fun ms e =>
          let es := e ms.2
          (btreeElemInsert (f es.1) ms.1, es.2)) (m, s) =
      ((evalElems xs s).1.foldl (fun m x => btreeElemInsert (f x) m) m,
        (evalElems xs s).2) := by
  induction xs with
  | nil => intro m s; simp [evalElems]
  | cons e t ih =>
    intro m s
    simp only [List.foldl_cons]
    rw [ih]
    simp [evalElems, List.foldl_cons]

theorem evalMapEntries_tag (ps : List (Nat × Nat)) :
    ∀ s : List Nat,
      evalMapEntries (ps.map fun p => (tag p.1, tag p.2)) s =
        (ps, s ++ flatLabels ps) := by
  induction ps with
  | nil => intro s; simp [evalMapEntries, flatLabels]
  | cons p t ih =>
    intro s
    simp [evalMapEntries, tag, flatLabels, ih, List.append_assoc]

theorem evalElems_tag (xs : List Nat) :
    ∀ s : List Nat,
      evalElems (xs.map tag) s = (xs, s ++ xs) := by
  induction xs with
  | nil => intro s; simp [evalElems]
  | cons x t ih =>
    intro s
    simp [evalElems, tag, ih, List.append_assoc]

/-- C1: For every entry list, a `hashmap!` or `hashset!` build call
evaluates each entry's key/value/element expression exactly once: the
effectful expansion (arity-count pass, allocation, insert loop) equals
a single one-evaluation pass over the entry expressions followed by the
pure build of the evaluated entries.  The `@count` pass that determines
the pre-allocation size consumes only the list structure, so every
observable side effect of an entry expression is triggered exactly
once, not twice. -/
theorem entries_evaluated_once [DecidableEq K] [DecidableEq T]
    (fk : α → K) (fv : β → V) (f : γ → T)
    (es : List (Expr σ α × Expr σ β)) (xs : List (Expr δ γ))
    (s : σ) (s2 : δ) :
    hashmapBuildE fk fv es s =
      (hashmapBuild fk fv (evalMapEntries es s).1, (evalMapEntries es s).2)
    ∧ hashsetBuildE f xs s2 =
      (hashsetBuild f (evalElems xs s2).1, (evalElems xs s2).2) := by
  constructor
  · have hc : hashmapCount ((evalMapEntries es s).1) = hashmapCount es := by
      rw [hashmapCount_eq_length, hashmapCount_eq_length,
        evalMapEntries_length]
    rw [hashmapBuildE, hashmapBuildE_fold, hashmapBuild, hc]
  · have hc : hashsetCount ((evalElems xs s2).1) = hashsetCount xs := by
      rw [hashsetCount_eq_length, hashsetCount_eq_length, evalElems_length]
    rw [hashsetBuildE, hashsetBuildE_fold, hashsetBuild, hc]

/-- C3: For every entry list, the resulting unordered map has length
equal to the number of distinct keys, with the value of the last
occurrence of a duplicate key winning, and the resulting unordered set
has length equal to the number of distinct elements, duplicates
collapsing silently. -/
theorem distinct_keys_last_wins [DecidableEq K] [DecidableEq T]
    (es : List (K × V)) (xs : List T) :
    (hashmapBuild (id : K → K) (id : V → V) es).entries.length =
        (es.map Prod.fst).toFinset.card
    ∧ (∀ k : K,
        lookupEntry k (hashmapBuild (id : K → K) (id : V → V) es).entries =
          lastVal es k)
    ∧ (hashsetBuild (id : T → T) xs).elems.length = xs.toFinset.card := by
  refine ⟨?_, ?_, ?_⟩
  · rw [hashmapBuild_id_entries]
    have h1 := insertAll_keys_nodup es ([] : List (K × V)) (by simp)
    have h2 := insertAll_keys_toFinset es ([] : List (K × V))
    have h3 := List.toFinset_card_of_nodup h1
    rw [h2] at h3
    simp only [List.map_nil, List.toFinset_nil, Finset.empty_union] at h3
    rw [h3, List.length_map]
  · intro k
    rw [hashmapBuild_id_entries, insertAll_lookup]
    rfl
  · rw [hashsetBuild_id_elems]
    have h1 := insertAllElems_nodup xs ([] : List T) (by simp)
    have h2 := insertAllElems_toFinset xs ([] : List T)
    have h3 := List.toFinset_card_of_nodup h1
    rw [h2] at h3
    simp only [List.toFinset_nil, Finset.empty_union] at h3
    rw [← h3]

/-- Counterexample to the trailing-separator claim as stated over all
entry lists: for the empty entry list the trailing-comma rules (which
require one or more entries) match nothing, so a call consisting of a
bare trailing separator is rejected, while the empty call builds an
empty container.  The two are not equal. -/
theorem trailing_separator_empty_cex :
    hashmap (id : Nat → Nat) (id : Nat → Nat) []
        ([] : List (Nat × Nat)) true
      ≠ hashmap (id : Nat → Nat) (id : Nat → Nat) [] [] false := by
  decide

/-- C4: For every nonempty entry list, building with a trailing
separator produces a container equal to building the same list without
the trailing separator, for all four builder variants. -/
theorem trailing_separator_equal [DecidableEq K] [DecidableEq T]
    {A C : Type} [LinearOrder A] [LinearOrder C]
    (fk : α → K) (fv : β → V) (f : γ → T)
    (gk : α → A) (gv : β → V) (g : γ → C)
    (es : List (α × β)) (xs : List γ)
    (h1 : es ≠ []) (h2 : xs ≠ []) :
    hashmap fk fv [] es true = hashmap fk fv [] es false
    ∧ hashset f [] xs true = hashset f [] xs false
    ∧ btreemap gk gv es true = btreemap gk gv es false
    ∧ btreeset g xs true = btreeset g xs false := by
  rcases es with _ | ⟨e, t⟩
  · exact absurd rfl h1
  rcases xs with _ | ⟨x, t2⟩
  · exact absurd rfl h2
  exact ⟨rfl, rfl, rfl, rfl⟩

/-- Witness for the trailing-separator claim at concrete one-entry
lists. -/
theorem trailing_separator_equal_w :
    hashmap (id : Nat → Nat) (id : Nat → Nat) [] [(1, 2)] true
        = hashmap (id : Nat → Nat) (id : Nat → Nat) [] [(1, 2)] false
    ∧ hashset (id : Nat → Nat) [] [3] true
        = hashset (id : Nat → Nat) [] [3] false
    ∧ btreemap (id : Nat → Nat) (id : Nat → Nat) [(1, 2)] true
        = btreemap (id : Nat → Nat) (id : Nat → Nat) [(1, 2)] false
    ∧ btreeset (id : Nat → Nat) [3] true
        = btreeset (id : Nat → Nat) [3] false :=
  trailing_separator_equal id id id id id id [(1, 2)] [3]
    (by simp) (by simp)

/-- C5: The ordered-map and ordered-set builders take no options record
and no capacity hint (their call shape carries only the entry list and
the trailing-comma flag) and no key transform beyond the `.into()`
conversion; they insert every entry in list order, and the iteration
order of the resulting container is the ascending comparison order of
its keys/elements — which are exactly the written keys/elements — not
insertion order. -/
theorem btree_sorted_iteration [LinearOrder K] [LinearOrder T]
    (es : List (K × V)) (xs : List T) :
    List.Sorted (· < ·)
        ((btreemapBuild (id : K → K) (id : V → V) es).map Prod.fst)
    ∧ (∀ a : K,
        a ∈ (btreemapBuild (id : K → K) (id : V → V) es).map Prod.fst ↔
          a ∈ es.map Prod.fst)
    ∧ List.Sorted (· < ·) (btreesetBuild (id : T → T) xs)
    ∧ (∀ a : T, a ∈ btreesetBuild (id : T → T) xs ↔ a ∈ xs) := by
  refine ⟨?_, ?_, ?_, ?_⟩
  · exact btreeFold_sorted id id es ([] : List (K × V)) (by simp)
  · intro a
    simp only [btreemapBuild]
    rw [btreeFold_keys_mem id id a es ([] : List (K × V))]
    simp
  · exact btreeFoldElem_sorted id xs ([] : List T) (by simp)
  · intro a
    simp only [btreesetBuild]
    rw [btreeFoldElem_mem id a xs ([] : List T)]
    simp

/-- C6: With the key transform unset (the code has no key_map option;
the `.into()` conversions are the reflexive instance, i.e. the
identity, when the written types equal the container types) the
unordered-map builder inserts each written pair unchanged, in list
order: every stored pair is one of the written pairs, the stored keys
are exactly the written keys, and for sets the stored elements are
exactly the written elements. -/
theorem identity_transform_insertion [DecidableEq K] [DecidableEq T]
    (es : List (K × V)) (xs : List T) :
    (∀ q : K × V,
        q ∈ (hashmapBuild (id : K → K) (id : V → V) es).entries → q ∈ es)
    ∧ (∀ k : K,
        k ∈ (hashmapBuild (id : K → K) (id : V → V) es).entries.map
            Prod.fst ↔ k ∈ es.map Prod.fst)
    ∧ (∀ x : T, x ∈ (hashsetBuild (id : T → T) xs).elems ↔ x ∈ xs) := by
  refine ⟨?_, ?_, ?_⟩
  · intro q hq
    rw [hashmapBuild_id_entries] at hq
    rcases mem_insertAll es ([] : List (K × V)) hq with h | h
    · exact absurd h (List.not_mem_nil q)
    · exact h
  · intro k
    rw [hashmapBuild_id_entries]
    have h1 := insertAll_keys_toFinset es ([] : List (K × V))
    constructor
    · intro hk
      have h2 := List.mem_toFinset.2 hk
      rw [h1] at h2
      simpa using h2
    · intro hk
      have h2 : k ∈ ((insertAll ([] : List (K × V)) es).map
          Prod.fst).toFinset := by
        rw [h1]
        simpa using hk
      exact List.mem_toFinset.1 h2
  · intro x
    rw [hashsetBuild_id_elems]
    have h1 := insertAllElems_toFinset xs ([] : List T)
    constructor
    · intro hx
      have h2 := List.mem_toFinset.2 hx
      rw [h1] at h2
      simpa using h2
    · intro hx
      have h2 : x ∈ (insertAllElems ([] : List T) xs).toFinset := by
        rw [h1]
        simpa using hx
      exact List.mem_toFinset.1 h2

/-- Witness for the identity-insertion claim: concrete pairs and
elements pass through unchanged. -/
theorem identity_transform_insertion_w :
    ((2, 5) ∈ ([(2, 5)] : List (Nat × Nat)))
    ∧ (7 ∈ ([(7, 9)] : List (Nat × Nat)).map Prod.fst)
    ∧ (4 ∈ ([4] : List Nat)) :=
  ⟨(identity_transform_insertion [(2, 5)] ([] : List Nat)).1 (2, 5)
      (by decide),
    ((identity_transform_insertion [(7, 9)] ([] : List Nat)).2.1 7).mp
      (by decide),
    ((identity_transform_insertion ([] : List (Nat × Nat)) [4]).2.2 4).mp
      (by decide)⟩

/-- The effectful `hashset!` expansion equals one single-evaluation
pass over the element expressions followed by the pure build of the
evaluated elements. -/
theorem hashsetBuildE_eq [DecidableEq T] (f : γ → T)
    (xs : List (Expr σ γ)) (s : σ) :
    hashsetBuildE f xs s =
      (hashsetBuild f (evalElems xs s).1, (evalElems xs s).2) := by
  have hc : hashsetCount ((evalElems xs s).1) = hashsetCount xs := by
    rw [hashsetCount_eq_length, hashsetCount_eq_length, evalElems_length]
  rw [hashsetBuildE, hashsetBuildE_fold, hashsetBuild, hc]

/-- A `hashset!` call with at least one element matches a grammar rule
with or without a trailing comma: it evaluates the elements once, in
order, and returns the built container. -/
theorem hashsetE_builds [DecidableEq T] (f : γ → T)
    (x : Expr σ γ) (xs : List (Expr σ γ)) (tr : Bool) (s : σ) :
    hashsetE f (x :: xs) tr s =
      (some (hashsetBuild f (evalElems (x :: xs) s).1),
        (evalElems (x :: xs) s).2) := by
  have h := hashsetBuildE_eq f (x :: xs) s
  cases tr
  · show (fun r => (some r.1, r.2)) (hashsetBuildE f (x :: xs) s) = _
    rw [h]
  · show (fun r => (some r.1, r.2)) (hashsetBuildE f (x :: xs) s) = _
    rw [h]

/-- Counterexample to the unknown-option claim at the set builder: the
`hashset!` call whose token stream is the single unknown-name option
token foo = 1 (an options bag and no further entries) does not fail.
The token matches the element production as an assignment expression:
the call builds a one-element unit container with capacity hint 1 and
evaluates the assignment (the store gains foo = 1) — a container is
returned and an entry was evaluated, contradicting C7 as stated. -/
theorem unknown_option_hashset_cex :
    hashsetE (id : Unit → Unit)
        ([(⟨"foo", 1⟩ : OptToken)].map assignExpr) false [] =
      (some ⟨1, [()]⟩, [("foo", 1)]) := by
  rfl

/-- C7 (amended): For every entry list, including the empty one, a
`hashmap!` build call whose options bag contains a token whose name is
not one of capacity, hasher, key_map matches no grammar rule, so it
fails before any entry expression is evaluated (the state is returned
unchanged) and no container is returned.  For `hashset!` the failure
does not occur: its `$key:expr` element production matches each
`name = value` token as an assignment expression, so the same bag is
accepted as a list of unit elements — the call returns a container and
evaluates every assignment. -/
theorem unknown_option_hashmap_fails [DecidableEq K]
    (fk : α → K) (fv : β → V)
    (opts : List OptToken) (es : List (Expr σ α × Expr σ β))
    (tr : Bool) (s : σ)
    (t : OptToken) (ht : t ∈ opts) (hname : t.name ∉ recognizedNames) :
    hashmapE fk fv opts es tr s = (none, s)
    ∧ ∀ (tr2 : Bool) (s2 : List (String × Nat)),
        hashsetE (id : Unit → Unit) (opts.map assignExpr) tr2 s2 =
          (some (hashsetBuild id (evalElems (opts.map assignExpr) s2).1),
            (evalElems (opts.map assignExpr) s2).2) := by
  rcases opts with _ | ⟨o, os⟩
  · exact absurd ht (List.not_mem_nil t)
  · constructor
    · cases tr <;> rcases es with _ | ⟨e, t3⟩ <;> rfl
    · intro tr2 s2
      exact hashsetE_builds id (assignExpr o) (os.map assignExpr) tr2 s2

/-- Witness for the amended unknown-option claim: the concrete bag with
name foo is rejected by `hashmap!` with the state untouched, and is
accepted by `hashset!` as one unit element whose assignment runs. -/
theorem unknown_option_hashmap_fails_w :
    hashmapE (id : Nat → Nat) (id : Nat → Nat) [⟨"foo", 1⟩]
        ([] : List (Expr Nat Nat × Expr Nat Nat)) false 0 = (none, 0)
    ∧ hashsetE (id : Unit → Unit)
        ([(⟨"foo", 1⟩ : OptToken)].map assignExpr) false [] =
        (some (hashsetBuild id
            (evalElems ([(⟨"foo", 1⟩ : OptToken)].map assignExpr) []).1),
          (evalElems ([(⟨"foo", 1⟩ : OptToken)].map assignExpr) []).2) :=
  ⟨(unknown_option_hashmap_fails (id : Nat → Nat) (id : Nat → Nat)
      [⟨"foo", 1⟩] ([] : List (Expr Nat Nat × Expr Nat Nat)) false 0
      ⟨"foo", 1⟩ (List.mem_singleton_self _) (by decide)).1,
    (unknown_option_hashmap_fails (id : Nat → Nat) (id : Nat → Nat)
      [⟨"foo", 1⟩] ([] : List (Expr Nat Nat × Expr Nat Nat)) false 0
      ⟨"foo", 1⟩ (List.mem_singleton_self _) (by decide)).2 false []⟩

/-- Counterexample to the duplicate-option claim at the set builder:
the `hashset!` call whose token stream repeats the recognized name
capacity (capacity = 1, capacity = 2) does not fail.  Both tokens match
the element production as assignment expressions: the call builds a
one-element unit container with capacity hint 2, runs both assignments,
and the store silently ends at the last value (capacity = 2) — a
container is returned and the duplicate silently resolved, contradicting
C8 as stated. -/
theorem duplicate_option_hashset_cex :
    hashsetE (id : Unit → Unit)
        ([(⟨"capacity", 1⟩ : OptToken), ⟨"capacity", 2⟩].map assignExpr)
        false [] =
      (some ⟨2, [()]⟩, [("capacity", 2)]) := by
  rfl

/-- C8 (amended): A `hashmap!` build call whose options bag contains
the same recognized option name more than once matches no grammar rule,
so it fails with no container returned and nothing evaluated — it never
silently resolves to either the first or the last value.  For
`hashset!` the failure does not occur: the repeated `name = value`
tokens are accepted as assignment-expression elements, the call returns
a container, and every assignment runs in order, the named variable
silently ending at the last value. -/
theorem duplicate_option_hashmap_fails [DecidableEq K]
    (fk : α → K) (fv : β → V)
    (opts : List OptToken) (es : List (Expr σ α × Expr σ β))
    (tr : Bool) (s : σ)
    (n : String) (hrec : n ∈ recognizedNames)
    (hdup : 2 ≤ countName opts n) :
    hashmapE fk fv opts es tr s = (none, s)
    ∧ ∀ (tr2 : Bool) (s2 : List (String × Nat)),
        hashsetE (id : Unit → Unit) (opts.map assignExpr) tr2 s2 =
          (some (hashsetBuild id (evalElems (opts.map assignExpr) s2).1),
            (evalElems (opts.map assignExpr) s2).2) := by
  rcases opts with _ | ⟨o, os⟩
  · simp [countName] at hdup
  · constructor
    · cases tr <;> rcases es with _ | ⟨e, t3⟩ <;> rfl
    · intro tr2 s2
      exact hashsetE_builds id (assignExpr o) (os.map assignExpr) tr2 s2

/-- Witness for the amended duplicate-option claim: the concrete bag
repeating the capacity name is rejected by `hashmap!` with the state
untouched, and is accepted by `hashset!` as two unit elements whose
assignments both run. -/
theorem duplicate_option_hashmap_fails_w :
    hashmapE (id : Nat → Nat) (id : Nat → Nat)
        [⟨"capacity", 1⟩, ⟨"capacity", 2⟩]
        ([] : List (Expr Nat Nat × Expr Nat Nat)) false 0 = (none, 0)
    ∧ hashsetE (id : Unit → Unit)
        ([(⟨"capacity", 1⟩ : OptToken), ⟨"capacity", 2⟩].map assignExpr)
        false [] =
        (some (hashsetBuild id
            (evalElems ([(⟨"capacity", 1⟩ : OptToken),
              ⟨"capacity", 2⟩].map assignExpr) []).1),
          (evalElems ([(⟨"capacity", 1⟩ : OptToken),
            ⟨"capacity", 2⟩].map assignExpr) []).2) :=
  ⟨(duplicate_option_hashmap_fails (id : Nat → Nat) (id : Nat → Nat)
      [⟨"capacity", 1⟩, ⟨"capacity", 2⟩]
      ([] : List (Expr Nat Nat × Expr Nat Nat)) false 0 "capacity"
      (by decide) (by decide)).1,
    (duplicate_option_hashmap_fails (id : Nat → Nat) (id : Nat → Nat)
      [⟨"capacity", 1⟩, ⟨"capacity", 2⟩]
      ([] : List (Expr Nat Nat × Expr Nat Nat)) false 0 "capacity"
      (by decide) (by decide)).2 false []⟩

/-- C9: Building from the empty entry list is valid for all four
builder variants and produces a container of length 0. -/
theorem empty_entry_list_builds [DecidableEq K] [DecidableEq T]
    {A C : Type} [LinearOrder A] [LinearOrder C]
    (fk : α → K) (fv : β → V) (f : γ → T)
    (gk : α → A) (gv : β → V) (g : γ → C) :
    (hashmap fk fv [] [] false).map (fun m => m.entries.length) = some 0
    ∧ (hashset f [] [] false).map (fun s => s.elems.length) = some 0
    ∧ (btreemap gk gv [] false).map List.length = some 0
    ∧ (btreeset g [] false).map List.length = some 0 :=
  ⟨rfl, rfl, rfl, rfl⟩

/-- C10: All four builders evaluate entry expressions strictly in list
order, and within each map entry the key expression is evaluated before
its value expression: running the builders over expressions that log
their labels produces exactly the in-list-order, key-before-value event
trace. -/
theorem builders_evaluate_in_list_order (ps : List (Nat × Nat))
    (xs : List Nat) :
    (hashmapBuildE (id : Nat → Nat) (id : Nat → Nat)
        (ps.map fun p => (tag p.1, tag p.2)) []).2 = flatLabels ps
    ∧ (btreemapBuildE (id : Nat → Nat) (id : Nat → Nat)
        (ps.map fun p => (tag p.1, tag p.2)) []).2 = flatLabels ps
    ∧ (hashsetBuildE (id : Nat → Nat) (xs.map tag) []).2 = xs
    ∧ (btreesetBuildE (id : Nat → Nat) (xs.map tag) []).2 = xs := by
  refine ⟨?_, ?_, ?_, ?_⟩
  · rw [hashmapBuildE, hashmapBuildE_fold, evalMapEntries_tag]
    simp
  · rw [btreemapBuildE, btreemapBuildE_fold, evalMapEntries_tag]
    simp
  · rw [hashsetBuildE, hashsetBuildE_fold, evalElems_tag]
    simp
  · rw [btreesetBuildE, btreesetBuildE_fold, evalElems_tag]
    simp

end Maplit
